import Mathlib

/-!
Verification of the `bitcounts` program (a Go command that walks a directory
tree, reads every regular file, and tallies the number of 1-bits in all bytes
read).  The definitions below are a shallow embedding of the program's
functions: the Kernighan clear-lowest-set-bit loop, the `countFile` chunked
read loop, and the `count` directory-walk callback.  File streams are modelled
as the list of results successive `reader.Read` calls deliver, and the
directory walk as the list of callback invocations `fs.WalkDir` performs.
-/

namespace Bitcounts

/-- Source: `const BUFF_SIZE = 1000000`. -/
def BUFF_SIZE : Nat := 1000000

/-- Fuel-indexed version of the Kernighan loop
`for ; b != 0; c++ { b &= b - 1 }`.  One unit of fuel per loop iteration;
fuel `b` is always enough because `b &&& (b - 1) < b` when `b ≠ 0`
(proved in `countBitsAux_stable` below), so `countBits` computes exactly
the value the source loop leaves in `c`. -/
def countBitsAux : Nat → Nat → Nat
  | 0, _ => 0
  | fuel + 1, b => if b = 0 then 0 else countBitsAux fuel (b &&& (b - 1)) + 1

/-- The count of set bits the source's inner loop produces for byte value `b`. -/
def countBits (b : Nat) : Nat := countBitsAux b b

/-- Reference population count, fuel-indexed: sum of binary digits. -/
def popCountAux : Nat → Nat → Nat
  | 0, _ => 0
  | fuel + 1, n => if n = 0 then 0 else n % 2 + popCountAux fuel (n / 2)

/-- Reference population count of a natural number (sum of its binary digits),
written from the spec's description of popcount, independent of the source's
Kernighan loop. -/
def popCountRef (n : Nat) : Nat := popCountAux n n

/-- Reference popcount of a byte sequence: sum over bytes of population count. -/
def listPopCount (l : List Nat) : Nat := (l.map popCountRef).sum

theorem and_lt_of_ne_zero {b : Nat} (h : b ≠ 0) : b &&& (b - 1) < b :=
  lt_of_le_of_lt (Nat.and_le_right) (Nat.sub_lt (Nat.pos_of_ne_zero h) one_pos)

theorem countBitsAux_zero (fuel : Nat) : countBitsAux fuel 0 = 0 := by
  cases fuel <;> rfl

theorem countBitsAux_congr : ∀ b fuel₁ fuel₂ : Nat, b ≤ fuel₁ → b ≤ fuel₂ →
    countBitsAux fuel₁ b = countBitsAux fuel₂ b := by
  intro b
  induction b using Nat.strong_induction_on with
  | _ b ih =>
    intro fuel₁ fuel₂ h1 h2
    by_cases h0 : b = 0
    · subst h0; rw [countBitsAux_zero, countBitsAux_zero]
    · obtain ⟨f1, rfl⟩ : ∃ f1, fuel₁ = f1 + 1 := ⟨fuel₁ - 1, by omega⟩
      obtain ⟨f2, rfl⟩ : ∃ f2, fuel₂ = f2 + 1 := ⟨fuel₂ - 1, by omega⟩
      simp only [countBitsAux, h0, if_false]
      have hle : b &&& (b - 1) ≤ b - 1 := Nat.and_le_right
      have := ih (b &&& (b - 1)) (and_lt_of_ne_zero h0) f1 f2 (by omega) (by omega)
      omega

theorem countBitsAux_stable (fuel b : Nat) (h : b ≤ fuel) :
    countBitsAux fuel b = countBits b :=
  countBitsAux_congr b fuel b h le_rfl

/-- The fuel-indexed `countBits` satisfies exactly the recurrence of the
source loop: zero iterations for `b = 0`, otherwise one iteration plus the
count for `b &&& (b - 1)`. -/
theorem countBits_unfold (b : Nat) :
    countBits b = if b = 0 then 0 else countBits (b &&& (b - 1)) + 1 := by
  by_cases h0 : b = 0
  · subst h0; rfl
  · obtain ⟨k, rfl⟩ : ∃ k, b = k + 1 := ⟨b - 1, by omega⟩
    simp only [countBits, countBitsAux, h0, if_false]
    congr 1
    apply countBitsAux_stable
    have : (k + 1) &&& (k + 1 - 1) ≤ k + 1 - 1 := Nat.and_le_right
    omega

/-- The error value a `reader.Read` call returns alongside its bytes:
`nil`, `io.EOF`, or some other error carrying a message. -/
inductive ReadErr where
  | ok
  | eof
  | fail (msg : String)
deriving DecidableEq, Repr

/-- The outcome of one `reader.Read(bc.inbuf)` call: the bytes it wrote into
the front of the buffer (`chunk`, so `bread = chunk.length`) and the error
value it returned.  `Read` writes at most `len(inbuf)` bytes. -/
structure ReadResult where
  chunk : List Nat
  err : ReadErr
deriving DecidableEq, Repr

/-- Source: `type bitcounter struct { bytesRead, ones int; errs []string;
inbuf []byte }`.  Byte counts are modelled as `Nat` (they only ever grow and
stay far below the `int` range for any physical input). -/
structure bitcounter where
  bytesRead : Nat
  ones : Nat
  errs : List String
  inbuf : List Nat
deriving DecidableEq, Repr

/-- The inner per-chunk loop of `countFile`:
`for _, b := range inbuf[:bread] { c := 0; for ; b != 0; c++ { b &= b - 1 };
bc.ones += c }` — folds each byte's Kernighan count into the running `ones`. -/
def tallyBytes (ones : Nat) : List Nat → Nat
  | [] => ones
  | b :: rest => tallyBytes (ones + countBits b) rest

/-- Effect of `reader.Read` on the scratch buffer: the `chunk.length` bytes
delivered overwrite the buffer's front, the rest of the buffer is untouched. -/
def writeBuf (inbuf chunk : List Nat) : List Nat :=
  chunk ++ inbuf.drop chunk.length

/-- Source: `func (bc *bitcounter) countFile(infile *os.File) error`.
The stream is the list of results successive `reader.Read(bc.inbuf)` calls
deliver.  The Go loop is
`for ; err != io.EOF; bread, err = reader.Read(bc.inbuf) { if err != nil
{ return err }; <tally inbuf[:bread]> ; bc.bytesRead += bread }`:
the first iteration runs with `bread = 0, err = nil` (a no-op tally), and
after each read the loop first exits on `io.EOF` (returning `nil`), then
returns any other error — in both cases before tallying that read's chunk.
An exhausted result list stands for a reader that answers every further call
with `(0, io.EOF)`, which is how a drained `bufio.Reader` behaves. -/
def countFile (bc : bitcounter) : List ReadResult → bitcounter × Option String
  | [] => (bc, none)
  | r :: rest =>
    let bc1 : bitcounter := { bc with inbuf := writeBuf bc.inbuf r.chunk }
    match r.err with
    | .eof => (bc1, none)
    | .fail msg => (bc1, some msg)
    | .ok =>
      countFile { bc1 with
                  ones := tallyBytes bc1.ones r.chunk,
                  bytesRead := bc1.bytesRead + r.chunk.length } rest

/-- One invocation of the `fs.WalkDir` callback in `count`, classified by the
branch of the callback it exercises:
* `walkErr`: the walk reports an error for `path` (`err != nil`);
* `nilEntry`: `err == nil` but the `fs.DirEntry` is `nil`;
* `nonRegular`: an entry whose type is not a regular file (directory, …);
* `regularOpenFail`: a regular file that `os.Open` fails on; `os.Open`
  returns an `*fs.PathError`, whose `Error()` renders as
  `"open " + path + ": " + cause`;
* `regular`: a regular file whose open succeeds, with the read results its
  stream delivers. -/
inductive WalkEvent where
  | walkErr (path msg : String)
  | nilEntry (path : String)
  | nonRegular (path : String)
  | regularOpenFail (path cause : String)
  | regular (path : String) (reads : List ReadResult)
deriving DecidableEq, Repr

/-- Source: `fullPath := root; if path != "." { fullPath = root + "/" + path }`. -/
def fullPath (root path : String) : String :=
  if path = "." then root else root ++ "/" ++ path

/-- The body of the anonymous `fs.WalkDirFunc` passed to `fs.WalkDir` in
`count`, acting on one callback invocation.  Returns the updated accumulator
and the `error` value the callback returns to the walker (the source returns
`nil` on every branch). -/
def walkFunc (root : String) (bc : bitcounter) :
    WalkEvent → bitcounter × Option String
  | .walkErr path msg =>
    ({ bc with errs := bc.errs ++ ["walk error for " ++ path ++ ": " ++ msg] },
     none)
  | .nilEntry path =>
    ({ bc with errs := bc.errs ++ ["nil fs.DirEntry: " ++ path] }, none)
  | .nonRegular _ => (bc, none)
  | .regularOpenFail path cause =>
    ({ bc with errs := bc.errs ++ ["open " ++ fullPath root path ++ ": " ++ cause] },
     none)
  | .regular path reads =>
    match countFile bc reads with
    | (bc2, none) => (bc2, none)
    | (bc2, some msg) =>
      ({ bc2 with errs := bc2.errs ++
          ["error counting file " ++ fullPath root path ++ ": " ++ msg] },
       none)

/-- Source: `func (bc *bitcounter) count(root string) error` — runs
`fs.WalkDir(os.DirFS(root), ".", walkFunc)` over the sequence of callback
invocations the traversal produces and returns what `fs.WalkDir` returns:
`fs.WalkDir` stops and propagates the first non-nil error a callback
returns, and returns `nil` once the walk finishes. -/
def count (root : String) (bc : bitcounter) :
    List WalkEvent → bitcounter × Option String
  | [] => (bc, none)
  | ev :: rest =>
    match walkFunc root bc ev with
    | (bc2, none) => count root bc2 rest
    | (bc2, some e) => (bc2, some e)

/-- Source: `bc := &bitcounter{inbuf: make([]byte, BUFF_SIZE)}` — the
freshly initialized accumulator with a zeroed scratch buffer allocated once. -/
def initBC : bitcounter :=
  { bytesRead := 0, ones := 0, errs := [], inbuf := List.replicate BUFF_SIZE 0 }

/-- Source: `main` — builds the fresh accumulator, runs `bc.count(".")` over
the traversal's callback sequence, and panics only if `count` returns a
non-nil error. -/
def mainRun (events : List WalkEvent) : bitcounter × Option String :=
  count "." initBC events

/-- Whether `main` panics (aborts with a non-zero exit) on a scan whose
traversal produces `events`: it does exactly when `count` returns a non-nil
error. -/
def mainAborts (events : List WalkEvent) : Bool :=
  (mainRun events).2.isSome

end Bitcounts

namespace Bitcounts

set_option maxRecDepth 10000 in
theorem byte_table : ∀ b : Fin 256,
    countBits b.val = popCountRef b.val ∧ countBits b.val ≤ 8 := by decide

theorem byte_countBits_eq {b : Nat} (h : b < 256) : countBits b = popCountRef b :=
  (byte_table ⟨b, h⟩).1

theorem byte_countBits_le {b : Nat} (h : b < 256) : countBits b ≤ 8 :=
  (byte_table ⟨b, h⟩).2

theorem tallyBytes_eq (l : List Nat) : ∀ ones : Nat,
    tallyBytes ones l = ones + (l.map countBits).sum := by
  induction l with
  | nil => intro ones; simp [tallyBytes]
  | cons b rest ih => intro ones; simp [tallyBytes, ih]; omega

theorem countFile_errs (reads : List ReadResult) : ∀ bc : bitcounter,
    (countFile bc reads).1.errs = bc.errs := by
  induction reads with
  | nil => intro bc; rfl
  | cons r rest ih =>
    intro bc
    cases r with
    | mk chunk err => cases err <;> simp [countFile, ih]

end Bitcounts

namespace Bitcounts

/-- Total Kernighan count over a list of bytes. -/
def listCountBits (l : List Nat) : Nat := (l.map countBits).sum

/-- Total number of bytes delivered by a list of read results. -/
def sumChunkLens (reads : List ReadResult) : Nat :=
  (reads.map (fun r => r.chunk.length)).sum

/-- Total Kernighan count over all bytes delivered by a list of read results. -/
def sumChunkOnes (reads : List ReadResult) : Nat :=
  (reads.map (fun r => listCountBits r.chunk)).sum

/-- All bytes in a stream's chunks are byte values (`< 256`), as they are in
the source, where the buffer has type `[]byte`. -/
def ValidReads (reads : List ReadResult) : Prop :=
  ∀ r ∈ reads, ∀ b ∈ r.chunk, b < 256

/-- Every chunk of the stream fits the request size `cap` (a `Read(buf)` call
delivers at most `len(buf)` bytes). -/
def ReadsFit (cap : Nat) (reads : List ReadResult) : Prop :=
  ∀ r ∈ reads, r.chunk.length ≤ cap

/-- The stream a walk event carries (empty for events without one). -/
def eventReads : WalkEvent → List ReadResult
  | .regular _ reads => reads
  | _ => []

/-- All bytes in all streams of a walk are byte values. -/
def ValidEvents (events : List WalkEvent) : Prop :=
  ∀ ev ∈ events, ValidReads (eventReads ev)

/-- Every chunk in every stream of a walk fits the request size `cap`. -/
def EventsFit (cap : Nat) (events : List WalkEvent) : Prop :=
  ∀ ev ∈ events, ReadsFit cap (eventReads ev)

theorem countFile_append_ok : ∀ (good : List ReadResult) (bc : bitcounter),
    (∀ r ∈ good, r.err = ReadErr.ok) → ∀ tail : List ReadResult,
    ∃ bc2 : bitcounter,
      countFile bc (good ++ tail) = countFile bc2 tail ∧
      bc2.bytesRead = bc.bytesRead + sumChunkLens good ∧
      bc2.ones = bc.ones + sumChunkOnes good ∧
      bc2.errs = bc.errs := by
  intro good
  induction good with
  | nil =>
    intro bc _ tail
    exact ⟨bc, by simp, by simp [sumChunkLens], by simp [sumChunkOnes], rfl⟩
  | cons r rest ih =>
    intro bc h tail
    have hr : r.err = ReadErr.ok := h r (by simp)
    obtain ⟨chunk, err⟩ := r
    cases hr
    obtain ⟨bc2, heq, hb, ho, he⟩ :=
      ih { bc with inbuf := writeBuf bc.inbuf chunk,
                   ones := tallyBytes bc.ones chunk,
                   bytesRead := bc.bytesRead + chunk.length }
        (fun r hr2 => h r (List.mem_cons_of_mem _ hr2)) tail
    refine ⟨bc2, ?_, ?_, ?_, ?_⟩
    · simpa [countFile] using heq
    · rw [hb]; simp [sumChunkLens]; omega
    · rw [ho]; simp [sumChunkOnes, tallyBytes_eq, listCountBits]; omega
    · simpa using he

theorem walkFunc_regular_none (root path : String) (bc : bitcounter)
    (reads : List ReadResult) (h : (countFile bc reads).2 = none) :
    walkFunc root bc (.regular path reads) = ((countFile bc reads).1, none) := by
  rcases hcf : countFile bc reads with ⟨bc2, e⟩
  rw [hcf] at h
  simp only at h
  subst h
  simp [walkFunc, hcf]

theorem walkFunc_regular_some (root path : String) (bc : bitcounter)
    (reads : List ReadResult) (msg : String)
    (h : (countFile bc reads).2 = some msg) :
    walkFunc root bc (.regular path reads) =
      ({ (countFile bc reads).1 with
         errs := (countFile bc reads).1.errs ++
           ["error counting file " ++ fullPath root path ++ ": " ++ msg] },
       none) := by
  rcases hcf : countFile bc reads with ⟨bc2, e⟩
  rw [hcf] at h
  simp only at h
  subst h
  simp [walkFunc, hcf]

theorem walkFunc_snd_none (root : String) (bc : bitcounter) (ev : WalkEvent) :
    (walkFunc root bc ev).2 = none := by
  cases ev with
  | regular path reads =>
    rcases hcf : countFile bc reads with ⟨bc2, e⟩
    cases e with
    | none => rw [walkFunc_regular_none root path bc reads (by rw [hcf])]
    | some msg => rw [walkFunc_regular_some root path bc reads msg (by rw [hcf])]
  | walkErr path msg => rfl
  | nilEntry path => rfl
  | nonRegular path => rfl
  | regularOpenFail path cause => rfl

/-- `count` never returns a non-nil error: every branch of the walk callback
returns `nil`, and `fs.WalkDir` only propagates callback errors. -/
theorem count_snd_none (root : String) : ∀ (events : List WalkEvent)
    (bc : bitcounter), (count root bc events).2 = none := by
  intro events
  induction events with
  | nil => intro bc; rfl
  | cons ev rest ih =>
    intro bc
    rcases hw : walkFunc root bc ev with ⟨bc2, e⟩
    have he : e = none := by
      have h2 := walkFunc_snd_none root bc ev
      rw [hw] at h2; exact h2
    subst he
    simp [count, hw, ih]

/-- `count` steps by feeding the callback's accumulator to the rest of the
walk (the callback never returns an error, so the walk never stops early). -/
theorem count_cons (root : String) (bc : bitcounter) (ev : WalkEvent)
    (rest : List WalkEvent) :
    count root bc (ev :: rest) = count root (walkFunc root bc ev).1 rest := by
  rcases hw : walkFunc root bc ev with ⟨bc2, e⟩
  have he : e = none := by
    have := walkFunc_snd_none root bc ev
    rw [hw] at this; exact this
  subst he
  simp [count, hw]

end Bitcounts

namespace Bitcounts

theorem listCountBits_le (c : List Nat) (h : ∀ b ∈ c, b < 256) :
    listCountBits c ≤ 8 * c.length := by
  induction c with
  | nil => simp [listCountBits]
  | cons b rest ih =>
    have hb : countBits b ≤ 8 := byte_countBits_le (h b (by simp))
    have hr := ih (fun x hx => h x (List.mem_cons_of_mem _ hx))
    simp only [listCountBits, List.map_cons, List.sum_cons, List.length_cons] at *
    omega

theorem listCountBits_eq_listPopCount (c : List Nat) (h : ∀ b ∈ c, b < 256) :
    listCountBits c = listPopCount c := by
  induction c with
  | nil => rfl
  | cons b rest ih =>
    have hb : countBits b = popCountRef b := byte_countBits_eq (h b (by simp))
    have hr := ih (fun x hx => h x (List.mem_cons_of_mem _ hx))
    simp only [listCountBits, listPopCount, List.map_cons, List.sum_cons] at *
    omega

theorem countFile_mono : ∀ (reads : List ReadResult) (bc : bitcounter),
    bc.bytesRead ≤ (countFile bc reads).1.bytesRead ∧
    bc.ones ≤ (countFile bc reads).1.ones := by
  intro reads
  induction reads with
  | nil => intro bc; exact ⟨le_refl _, le_refl _⟩
  | cons r rest ih =>
    intro bc
    obtain ⟨chunk, err⟩ := r
    cases err with
    | ok =>
      have := ih { bc with inbuf := writeBuf bc.inbuf chunk,
                           ones := tallyBytes bc.ones chunk,
                           bytesRead := bc.bytesRead + chunk.length }
      simp only [countFile] at *
      refine ⟨le_trans (by omega) this.1, le_trans ?_ this.2⟩
      simp [tallyBytes_eq]
    | eof => exact ⟨le_refl _, le_refl _⟩
    | fail msg => exact ⟨le_refl _, le_refl _⟩

theorem countFile_inv : ∀ (reads : List ReadResult) (bc : bitcounter),
    ValidReads reads → bc.ones ≤ bc.bytesRead * 8 →
    (countFile bc reads).1.ones ≤ (countFile bc reads).1.bytesRead * 8 := by
  intro reads
  induction reads with
  | nil => intro bc _ h; exact h
  | cons r rest ih =>
    intro bc hv h
    obtain ⟨chunk, err⟩ := r
    cases err with
    | ok =>
      simp only [countFile]
      apply ih
      · intro r hr b hb; exact hv r (List.mem_cons_of_mem _ hr) b hb
      · have hc : listCountBits chunk ≤ 8 * chunk.length :=
          listCountBits_le chunk (hv ⟨chunk, .ok⟩ (by simp))
        simp only [tallyBytes_eq, listCountBits] at *
        omega
    | eof => exact h
    | fail msg => exact h

theorem countFile_inbuf_len : ∀ (reads : List ReadResult) (bc : bitcounter),
    ReadsFit bc.inbuf.length reads →
    (countFile bc reads).1.inbuf.length = bc.inbuf.length := by
  intro reads
  induction reads with
  | nil => intro bc _; rfl
  | cons r rest ih =>
    intro bc hfit
    obtain ⟨chunk, err⟩ := r
    have hlen : (writeBuf bc.inbuf chunk).length = bc.inbuf.length := by
      have := hfit ⟨chunk, err⟩ (by simp)
      simp only [writeBuf, List.length_append, List.length_drop] at *
      omega
    cases err with
    | ok =>
      simp only [countFile]
      rw [ih _ ?_, hlen]
      intro r hr
      simp only [hlen]
      exact hfit r (List.mem_cons_of_mem _ hr)
    | eof => simpa [countFile] using hlen
    | fail msg => simpa [countFile] using hlen

end Bitcounts

namespace Bitcounts

theorem walkFunc_mono (root : String) (ev : WalkEvent) (bc : bitcounter) :
    bc.bytesRead ≤ (walkFunc root bc ev).1.bytesRead ∧
    bc.ones ≤ (walkFunc root bc ev).1.ones ∧
    ∃ tail, (walkFunc root bc ev).1.errs = bc.errs ++ tail := by
  cases ev with
  | walkErr path msg => exact ⟨le_refl _, le_refl _, _, rfl⟩
  | nilEntry path => exact ⟨le_refl _, le_refl _, _, rfl⟩
  | nonRegular path => exact ⟨le_refl _, le_refl _, [], by simp [walkFunc]⟩
  | regularOpenFail path cause => exact ⟨le_refl _, le_refl _, _, rfl⟩
  | regular path reads =>
    have hm := countFile_mono reads bc
    have he := countFile_errs reads bc
    rcases hcf : (countFile bc reads).2 with _ | msg
    · rw [walkFunc_regular_none root path bc reads hcf]
      exact ⟨hm.1, hm.2, [], by simp [he]⟩
    · rw [walkFunc_regular_some root path bc reads msg hcf]
      refine ⟨hm.1, hm.2,
        ["error counting file " ++ fullPath root path ++ ": " ++ msg], ?_⟩
      simp [he]

theorem walkFunc_inv (root : String) (ev : WalkEvent) (bc : bitcounter)
    (hv : ValidReads (eventReads ev)) (h : bc.ones ≤ bc.bytesRead * 8) :
    (walkFunc root bc ev).1.ones ≤ (walkFunc root bc ev).1.bytesRead * 8 := by
  cases ev with
  | walkErr path msg => exact h
  | nilEntry path => exact h
  | nonRegular path => exact h
  | regularOpenFail path cause => exact h
  | regular path reads =>
    have hi := countFile_inv reads bc hv h
    rcases hcf : (countFile bc reads).2 with _ | msg
    · rw [walkFunc_regular_none root path bc reads hcf]; exact hi
    · rw [walkFunc_regular_some root path bc reads msg hcf]; exact hi

theorem count_mono (root : String) : ∀ (events : List WalkEvent)
    (bc : bitcounter),
    bc.bytesRead ≤ (count root bc events).1.bytesRead ∧
    bc.ones ≤ (count root bc events).1.ones ∧
    ∃ tail, (count root bc events).1.errs = bc.errs ++ tail := by
  intro events
  induction events with
  | nil => intro bc; exact ⟨le_refl _, le_refl _, [], by simp [count]⟩
  | cons ev rest ih =>
    intro bc
    rw [count_cons]
    have h1 := walkFunc_mono root ev bc
    have h2 := ih (walkFunc root bc ev).1
    obtain ⟨t1, ht1⟩ := h1.2.2
    obtain ⟨t2, ht2⟩ := h2.2.2
    exact ⟨le_trans h1.1 h2.1, le_trans h1.2.1 h2.2.1,
      t1 ++ t2, by rw [ht2, ht1, List.append_assoc]⟩

theorem count_inv (root : String) : ∀ (events : List WalkEvent)
    (bc : bitcounter), ValidEvents events → bc.ones ≤ bc.bytesRead * 8 →
    (count root bc events).1.ones ≤ (count root bc events).1.bytesRead * 8 := by
  intro events
  induction events with
  | nil => intro bc _ h; exact h
  | cons ev rest ih =>
    intro bc hv h
    rw [count_cons]
    exact ih _ (fun e he => hv e (List.mem_cons_of_mem _ he))
      (walkFunc_inv root ev bc (hv ev (by simp)) h)

theorem walkFunc_inbuf_len (root : String) (ev : WalkEvent) (bc : bitcounter)
    (hfit : ReadsFit bc.inbuf.length (eventReads ev)) :
    (walkFunc root bc ev).1.inbuf.length = bc.inbuf.length := by
  cases ev with
  | walkErr path msg => rfl
  | nilEntry path => rfl
  | nonRegular path => rfl
  | regularOpenFail path cause => rfl
  | regular path reads =>
    have hl := countFile_inbuf_len reads bc hfit
    rcases hcf : (countFile bc reads).2 with _ | msg
    · rw [walkFunc_regular_none root path bc reads hcf]; exact hl
    · rw [walkFunc_regular_some root path bc reads msg hcf]; exact hl

theorem count_inbuf_len (root : String) : ∀ (events : List WalkEvent)
    (bc : bitcounter), EventsFit bc.inbuf.length events →
    (count root bc events).1.inbuf.length = bc.inbuf.length := by
  intro events
  induction events with
  | nil => intro bc _; rfl
  | cons ev rest ih =>
    intro bc hfit
    rw [count_cons]
    have hl := walkFunc_inbuf_len root ev bc (hfit ev (by simp))
    rw [ih _ ?_, hl]
    intro e he
    rw [hl]
    exact hfit e (List.mem_cons_of_mem _ he)

end Bitcounts

namespace Bitcounts

/-- C3: Per-byte popcount correctness: for every byte `b`, the
clear-lowest-set-bit loop terminates (its value satisfies exactly the loop's
recurrence, with `b &&& (b - 1)` strictly decreasing) and computes the
reference population count; in particular `0xFF` yields 8, `0x00` yields 0,
and `0xAA` and `0x55` each yield 4. -/
theorem C3_per_byte_popcount :
    (∀ b : Nat, countBits b = if b = 0 then 0 else countBits (b &&& (b - 1)) + 1) ∧
    (∀ b : Nat, b ≠ 0 → b &&& (b - 1) < b) ∧
    (∀ b : Fin 256, countBits b.val = popCountRef b.val) ∧
    countBits 0xFF = 8 ∧ countBits 0x00 = 0 ∧
    countBits 0xAA = 4 ∧ countBits 0x55 = 4 :=
  ⟨countBits_unfold, fun _ h => and_lt_of_ne_zero h,
   fun b => (byte_table b).1, by decide, rfl, by decide, by decide⟩

/-- C9: a chunk is tallied only when the read that produced it returned a
nil error: a read delivering bytes together with `io.EOF` exits the loop
before the chunk is processed (totals unchanged, `nil` returned), and a read
delivering bytes together with any other error returns that error before the
chunk is processed (totals unchanged). -/
theorem C9_final_chunk_dropped (bc : bitcounter) (chunk : List Nat)
    (msg : String) (rest : List ReadResult) :
    ((countFile bc (⟨chunk, .eof⟩ :: rest)).1.ones = bc.ones ∧
     (countFile bc (⟨chunk, .eof⟩ :: rest)).1.bytesRead = bc.bytesRead ∧
     (countFile bc (⟨chunk, .eof⟩ :: rest)).2 = none) ∧
    ((countFile bc (⟨chunk, .fail msg⟩ :: rest)).1.ones = bc.ones ∧
     (countFile bc (⟨chunk, .fail msg⟩ :: rest)).1.bytesRead = bc.bytesRead ∧
     (countFile bc (⟨chunk, .fail msg⟩ :: rest)).2 = some msg) :=
  ⟨⟨rfl, rfl, rfl⟩, ⟨rfl, rfl, rfl⟩⟩

/-- The stream of a short regular file: one read delivering all its bytes
with a nil error, then a read answering `(0, io.EOF)`. -/
def fileReads (content : List Nat) : List ReadResult :=
  [⟨content, .ok⟩, ⟨[], .eof⟩]

/-- The callback sequence `fs.WalkDir` produces for the scenario directory of
the spec: the root directory itself, then its entries in lexical order
(`empty.txt`, `file1.txt`, `file2.bin`, `subdir`), descending into `subdir`.
`file1.txt` holds "hello", `file2.bin` holds `{0xFF, 0x00}`, `empty.txt` is
empty (its first read already answers `(0, io.EOF)`), and `subdir/subfile.txt`
holds `{0xAA}`. -/
def scenarioEvents : List WalkEvent :=
  [ .nonRegular ".",
    .regular "empty.txt" [⟨[], .eof⟩],
    .regular "file1.txt" (fileReads [0x68, 0x65, 0x6C, 0x6C, 0x6F]),
    .regular "file2.bin" (fileReads [0xFF, 0x00]),
    .nonRegular "subdir",
    .regular "subdir/subfile.txt" (fileReads [0xAA]) ]

/-- C8: the end-to-end scenario yields `totalOneBits = 33`,
`totalBytesRead = 8` and an empty error log; a zero-byte file contributes 0
to both totals and produces no error, and non-regular entries contribute
nothing at all. -/
theorem C8_scenario :
    (count "d" initBC scenarioEvents).1.ones = 33 ∧
    (count "d" initBC scenarioEvents).1.bytesRead = 8 ∧
    (count "d" initBC scenarioEvents).1.errs = [] ∧
    (count "d" initBC scenarioEvents).2 = none ∧
    (∀ bc : bitcounter,
      (countFile bc [⟨[], .eof⟩]).1.ones = bc.ones ∧
      (countFile bc [⟨[], .eof⟩]).1.bytesRead = bc.bytesRead ∧
      (countFile bc [⟨[], .eof⟩]).1.errs = bc.errs ∧
      (countFile bc [⟨[], .eof⟩]).2 = none) ∧
    (∀ (root path : String) (bc : bitcounter),
      walkFunc root bc (.nonRegular path) = (bc, none)) :=
  ⟨rfl, rfl, rfl, rfl, fun _ => ⟨rfl, rfl, rfl, rfl⟩, fun _ _ _ => rfl⟩

/-- C4: `count` returns a nil error for every walk, however many files fail;
and for a nonexistent root — where `fs.WalkDir` stats the root first and, on
failure, invokes the callback exactly once with the root path `"."`, a nil
entry and the stat error — the scan ends with exactly one error-log entry,
which starts with the phrase "walk error", and zero totals. -/
theorem C4_never_aborts :
    (∀ (root : String) (bc : bitcounter) (events : List WalkEvent),
      (count root bc events).2 = none) ∧
    (∀ msg : String,
      (count "." initBC [.walkErr "." msg]).1.errs
          = ["walk error for .: " ++ msg] ∧
      (count "." initBC [.walkErr "." msg]).1.errs.length = 1 ∧
      (∃ t, (count "." initBC [.walkErr "." msg]).1.errs = ["walk error" ++ t]) ∧
      (count "." initBC [.walkErr "." msg]).1.bytesRead = 0 ∧
      (count "." initBC [.walkErr "." msg]).1.ones = 0 ∧
      (count "." initBC [.walkErr "." msg]).2 = none) := by
  refine ⟨fun root bc events => count_snd_none root events bc, fun msg => ?_⟩
  refine ⟨rfl, rfl, ⟨" for .: " ++ msg, ?_⟩, rfl, rfl, rfl⟩
  rw [← String.append_assoc]
  rfl

/-- C5 counterexample: for the callback trace of a root that cannot be used
to start traversal at all (`fs.WalkDir` reports the failed stat of the root
through one callback invocation), `main` does not panic — refuting the claim
that a fatal traversal-initialization error aborts the process. -/
theorem C5_counterexample :
    mainAborts [.walkErr "." "stat .: no such file or directory"] = false := rfl

/-- C5 amended: the walk callback swallows every error, so `count` never
returns a non-nil error, `main`'s panic branch is unreachable for every scan,
and a root that cannot be used to start traversal is merely logged as a
per-entry walk error. -/
theorem C5_no_abort (events : List WalkEvent) (msg : String) :
    mainAborts events = false ∧
    (mainRun [.walkErr "." msg]).1.errs = ["walk error for .: " ++ msg] := by
  constructor
  · simp [mainAborts, mainRun, count_snd_none]
  · rfl

end Bitcounts

namespace Bitcounts

/-- C1: partial credit on mid-stream failure.  For any stream whose reads
deliver some successful chunks and then fail with a non-EOF error:
`countFile` returns that error at once (the result does not depend on any
later read), the totals keep exactly the bytes and one-bits of the chunks
delivered before the failure (no rollback), `countFile` itself leaves the
error log alone, and the walk callback records the failure in the error log
and returns nil to the walker, so the stream's error never stops the scan. -/
theorem C1_partial_credit (root path msg : String) (bc : bitcounter)
    (good : List ReadResult) (hgood : ∀ r ∈ good, r.err = ReadErr.ok)
    (chunk : List Nat) (rest : List ReadResult) :
    (countFile bc (good ++ ⟨chunk, .fail msg⟩ :: rest)).2 = some msg ∧
    (countFile bc (good ++ ⟨chunk, .fail msg⟩ :: rest)).1.bytesRead
        = bc.bytesRead + sumChunkLens good ∧
    (countFile bc (good ++ ⟨chunk, .fail msg⟩ :: rest)).1.ones
        = bc.ones + sumChunkOnes good ∧
    (countFile bc (good ++ ⟨chunk, .fail msg⟩ :: rest)).1.errs = bc.errs ∧
    (walkFunc root bc (.regular path (good ++ ⟨chunk, .fail msg⟩ :: rest))).2
        = none ∧
    (walkFunc root bc (.regular path (good ++ ⟨chunk, .fail msg⟩ :: rest))).1.errs
        = bc.errs ++
          ["error counting file " ++ fullPath root path ++ ": " ++ msg] := by
  obtain ⟨bc2, heq, hb, ho, he⟩ :=
    countFile_append_ok good bc hgood (⟨chunk, .fail msg⟩ :: rest)
  have h2 : (countFile bc (good ++ ⟨chunk, .fail msg⟩ :: rest)).2 = some msg := by
    rw [heq]; rfl
  have hbr : (countFile bc (good ++ ⟨chunk, .fail msg⟩ :: rest)).1.bytesRead
      = bc2.bytesRead := by rw [heq]; rfl
  have hon : (countFile bc (good ++ ⟨chunk, .fail msg⟩ :: rest)).1.ones
      = bc2.ones := by rw [heq]; rfl
  refine ⟨h2, by rw [hbr, hb], by rw [hon, ho], countFile_errs _ bc,
    walkFunc_snd_none root bc _, ?_⟩
  rw [walkFunc_regular_some root path bc _ msg h2]
  simp [countFile_errs _ bc]

/-- The reads of one file's bytes split into successive chunks: each chunk is
delivered by one successful read. -/
def toOkReads (chunks : List (List Nat)) : List ReadResult :=
  chunks.map (fun c => ⟨c, .ok⟩)

theorem listCountBits_append (l₁ l₂ : List Nat) :
    listCountBits (l₁ ++ l₂) = listCountBits l₁ + listCountBits l₂ := by
  simp [listCountBits]

theorem sumChunkLens_toOk (chunks : List (List Nat)) :
    sumChunkLens (toOkReads chunks) = chunks.flatten.length := by
  induction chunks with
  | nil => rfl
  | cons c rest ih =>
    simp only [toOkReads, List.map_cons, sumChunkLens, List.sum_cons,
      List.flatten_cons, List.length_append] at *
    omega

theorem sumChunkOnes_toOk (chunks : List (List Nat)) :
    sumChunkOnes (toOkReads chunks) = listCountBits chunks.flatten := by
  induction chunks with
  | nil => rfl
  | cons c rest ih =>
    simp only [toOkReads, List.map_cons, sumChunkOnes, List.sum_cons,
      List.flatten_cons, listCountBits_append] at *
    omega

theorem countFile_ok_eof (chunks : List (List Nat)) (bc : bitcounter) :
    (countFile bc (toOkReads chunks ++ [⟨[], .eof⟩])).2 = none ∧
    (countFile bc (toOkReads chunks ++ [⟨[], .eof⟩])).1.ones
        = bc.ones + listCountBits chunks.flatten ∧
    (countFile bc (toOkReads chunks ++ [⟨[], .eof⟩])).1.bytesRead
        = bc.bytesRead + chunks.flatten.length := by
  obtain ⟨bc2, heq, hb, ho, he⟩ :=
    countFile_append_ok (toOkReads chunks) bc
      (by intro r hr
          simp only [toOkReads, List.mem_map] at hr
          obtain ⟨c, _, rfl⟩ := hr
          rfl)
      [⟨[], .eof⟩]
  refine ⟨by rw [heq]; rfl, ?_, ?_⟩
  · have : (countFile bc (toOkReads chunks ++ [⟨[], .eof⟩])).1.ones = bc2.ones := by
      rw [heq]; rfl
    rw [this, ho, sumChunkOnes_toOk]
  · have : (countFile bc (toOkReads chunks ++ [⟨[], .eof⟩])).1.bytesRead
        = bc2.bytesRead := by rw [heq]; rfl
    rw [this, hb, sumChunkLens_toOk]

/-- C2: chunking invariance.  Reading a file's bytes in any succession of
chunks (each delivered by a successful read, then end-of-stream) accumulates
exactly the reference popcount and the length of the concatenation of the
chunks — in particular, the same totals as reading the whole concatenation
in one single read. -/
theorem C2_chunking_invariance (bc : bitcounter) (chunks : List (List Nat))
    (hbytes : ∀ c ∈ chunks, ∀ b ∈ c, b < 256) :
    (countFile bc (toOkReads chunks ++ [⟨[], .eof⟩])).2 = none ∧
    (countFile bc (toOkReads chunks ++ [⟨[], .eof⟩])).1.ones
        = bc.ones + listPopCount chunks.flatten ∧
    (countFile bc (toOkReads chunks ++ [⟨[], .eof⟩])).1.bytesRead
        = bc.bytesRead + chunks.flatten.length ∧
    (countFile bc (toOkReads chunks ++ [⟨[], .eof⟩])).1.ones
        = (countFile bc (toOkReads [chunks.flatten] ++ [⟨[], .eof⟩])).1.ones ∧
    (countFile bc (toOkReads chunks ++ [⟨[], .eof⟩])).1.bytesRead
        = (countFile bc (toOkReads [chunks.flatten] ++ [⟨[], .eof⟩])).1.bytesRead := by
  have hmany := countFile_ok_eof chunks bc
  have hone := countFile_ok_eof [chunks.flatten] bc
  have hjoin : listCountBits chunks.flatten = listPopCount chunks.flatten := by
    apply listCountBits_eq_listPopCount
    intro b hb
    rw [List.mem_flatten] at hb
    obtain ⟨c, hc, hbc⟩ := hb
    exact hbytes c hc b hbc
  refine ⟨hmany.1, by rw [hmany.2.1, hjoin], hmany.2.2, ?_, ?_⟩
  · rw [hmany.2.1, hone.2.1]; simp
  · rw [hmany.2.2, hone.2.2]; simp

end Bitcounts

namespace Bitcounts

instance (reads : List ReadResult) : Decidable (ValidReads reads) :=
  inferInstanceAs (Decidable (∀ r ∈ reads, ∀ b ∈ r.chunk, b < 256))

instance (events : List WalkEvent) : Decidable (ValidEvents events) :=
  inferInstanceAs (Decidable (∀ ev ∈ events, ValidReads (eventReads ev)))

instance (cap : Nat) (reads : List ReadResult) : Decidable (ReadsFit cap reads) :=
  inferInstanceAs (Decidable (∀ r ∈ reads, r.chunk.length ≤ cap))

instance (cap : Nat) (events : List WalkEvent) : Decidable (EventsFit cap events) :=
  inferInstanceAs (Decidable (∀ ev ∈ events, ReadsFit cap (eventReads ev)))

/-- C6: state invariants.  Over any batch of walk events whose streams carry
byte values, both totals are monotonically non-decreasing, the error log only
ever grows by appending (existing entries are never removed or modified), the
invariant `totalOneBits ≤ totalBytesRead * 8` is preserved, and from the
freshly initialized accumulator it holds after every walk — hence at every
intermediate state, since each prefix of a walk is itself a walk. -/
theorem C6_invariants (root : String) (events : List WalkEvent)
    (bc : bitcounter) (hv : ValidEvents events) :
    bc.bytesRead ≤ (count root bc events).1.bytesRead ∧
    bc.ones ≤ (count root bc events).1.ones ∧
    (∃ tail, (count root bc events).1.errs = bc.errs ++ tail) ∧
    (bc.ones ≤ bc.bytesRead * 8 →
      (count root bc events).1.ones ≤ (count root bc events).1.bytesRead * 8) ∧
    (count root initBC events).1.ones
        ≤ (count root initBC events).1.bytesRead * 8 := by
  have hm := count_mono root events bc
  exact ⟨hm.1, hm.2.1, hm.2.2, fun h => count_inv root events bc hv h,
    count_inv root events initBC hv (by simp [initBC])⟩

/-- C6 witness: the invariants at a concrete one-file walk. -/
theorem C6_invariants_witness :
    ValidEvents [WalkEvent.regular "f" (fileReads [255, 0])] ∧
    (initBC.bytesRead ≤
        (count "." initBC [WalkEvent.regular "f" (fileReads [255, 0])]).1.bytesRead ∧
      initBC.ones ≤
        (count "." initBC [WalkEvent.regular "f" (fileReads [255, 0])]).1.ones ∧
      (∃ tail, (count "." initBC [WalkEvent.regular "f" (fileReads [255, 0])]).1.errs
          = initBC.errs ++ tail) ∧
      (initBC.ones ≤ initBC.bytesRead * 8 →
        (count "." initBC [WalkEvent.regular "f" (fileReads [255, 0])]).1.ones ≤
          (count "." initBC [WalkEvent.regular "f" (fileReads [255, 0])]).1.bytesRead * 8) ∧
      (count "." initBC [WalkEvent.regular "f" (fileReads [255, 0])]).1.ones ≤
        (count "." initBC [WalkEvent.regular "f" (fileReads [255, 0])]).1.bytesRead * 8) := by
  have hv : ValidEvents [WalkEvent.regular "f" (fileReads [255, 0])] := by decide
  exact ⟨hv, C6_invariants "." [WalkEvent.regular "f" (fileReads [255, 0])] initBC hv⟩

/-- C7: every non-fatal failure produces exactly one error-log entry, naming
the affected path and the underlying cause: a walk error for an entry, a nil
directory entry, an open failure on a regular file (whose `*fs.PathError`
renders `"open <path>: <cause>"`), and a mid-read stream error each append
exactly the one entry shown; a successfully consumed stream and a non-regular
entry append none. -/
theorem C7_one_entry_per_failure (root path cause msg : String)
    (bc : bitcounter) :
    (walkFunc root bc (.walkErr path msg)).1.errs
        = bc.errs ++ ["walk error for " ++ path ++ ": " ++ msg] ∧
    (walkFunc root bc (.nilEntry path)).1.errs
        = bc.errs ++ ["nil fs.DirEntry: " ++ path] ∧
    (walkFunc root bc (.nonRegular path)).1.errs = bc.errs ∧
    (walkFunc root bc (.regularOpenFail path cause)).1.errs
        = bc.errs ++ ["open " ++ fullPath root path ++ ": " ++ cause] ∧
    (∀ reads, (countFile bc reads).2 = none →
      (walkFunc root bc (.regular path reads)).1.errs = bc.errs) ∧
    (∀ reads failMsg, (countFile bc reads).2 = some failMsg →
      (walkFunc root bc (.regular path reads)).1.errs
        = bc.errs ++
          ["error counting file " ++ fullPath root path ++ ": " ++ failMsg]) := by
  refine ⟨rfl, rfl, rfl, rfl, fun reads h => ?_, fun reads failMsg h => ?_⟩
  · rw [walkFunc_regular_none root path bc reads h]
    exact countFile_errs reads bc
  · rw [walkFunc_regular_some root path bc reads failMsg h]
    simp [countFile_errs reads bc]

/-- C7 witness: a stream failing on its first read produces exactly the one
mid-read entry, and a successfully consumed stream produces none. -/
theorem C7_one_entry_per_failure_witness :
    (countFile initBC [⟨[], ReadErr.fail "boom"⟩]).2 = some "boom" ∧
    (walkFunc "." initBC (.regular "f" [⟨[], ReadErr.fail "boom"⟩])).1.errs
        = initBC.errs ++
          ["error counting file " ++ fullPath "." "f" ++ ": " ++ "boom"] ∧
    (countFile initBC (fileReads [255])).2 = none ∧
    (walkFunc "." initBC (.regular "f" (fileReads [255]))).1.errs
        = initBC.errs := by
  have h := C7_one_entry_per_failure "." "f" "c" "m" initBC
  exact ⟨rfl, h.2.2.2.2.2 [⟨[], ReadErr.fail "boom"⟩] "boom" rfl,
    rfl, h.2.2.2.2.1 (fileReads [255]) rfl⟩

/-- C10: the scratch buffer frame property.  `BUFF_SIZE` is 1,000,000; the
freshly created accumulator's buffer has exactly that length; `countFile`
leaves the buffer length and the error log unchanged whenever every read
delivers at most a buffer's worth of bytes (as `Read` guarantees); and across
a whole scan from the fresh accumulator the buffer length stays `BUFF_SIZE`. -/
theorem C10_buffer_frame :
    BUFF_SIZE = 1000000 ∧
    initBC.inbuf.length = BUFF_SIZE ∧
    (∀ (bc : bitcounter) (reads : List ReadResult),
      ReadsFit bc.inbuf.length reads →
      (countFile bc reads).1.inbuf.length = bc.inbuf.length ∧
      (countFile bc reads).1.errs = bc.errs) ∧
    (∀ (root : String) (events : List WalkEvent),
      EventsFit BUFF_SIZE events →
      (count root initBC events).1.inbuf.length = BUFF_SIZE) := by
  have hcap : initBC.inbuf.length = BUFF_SIZE := by simp [initBC]
  refine ⟨rfl, hcap,
    fun bc reads hfit => ⟨countFile_inbuf_len reads bc hfit, countFile_errs reads bc⟩,
    fun root events hfit => ?_⟩
  rw [← hcap] at hfit
  rw [count_inbuf_len root events initBC hfit, hcap]

/-- C10 witness: the frame property at a concrete stream and a concrete walk. -/
theorem C10_buffer_frame_witness :
    ReadsFit initBC.inbuf.length (fileReads [255]) ∧
    (countFile initBC (fileReads [255])).1.inbuf.length = initBC.inbuf.length ∧
    (countFile initBC (fileReads [255])).1.errs = initBC.errs ∧
    EventsFit BUFF_SIZE [WalkEvent.walkErr "." "m"] ∧
    (count "." initBC [WalkEvent.walkErr "." "m"]).1.inbuf.length = BUFF_SIZE := by
  have hcap : initBC.inbuf.length = BUFF_SIZE := by simp [initBC]
  have hr : ReadsFit initBC.inbuf.length (fileReads [255]) := by
    rw [hcap]; decide
  have he : EventsFit BUFF_SIZE [WalkEvent.walkErr "." "m"] := by decide
  have h := C10_buffer_frame
  exact ⟨hr, (h.2.2.1 initBC (fileReads [255]) hr).1,
    (h.2.2.1 initBC (fileReads [255]) hr).2, he, h.2.2.2 "." _ he⟩

end Bitcounts

namespace Bitcounts

/-- C1 witness: a stream delivering one good chunk and then failing keeps the
good chunk's totals, returns the failure, and the callback logs one entry. -/
theorem C1_partial_credit_witness :
    (∀ r ∈ [(⟨[255], ReadErr.ok⟩ : ReadResult)], r.err = ReadErr.ok) ∧
    ((countFile initBC ([⟨[255], ReadErr.ok⟩] ++ ⟨[1], .fail "boom"⟩ :: [])).2
        = some "boom" ∧
      (countFile initBC ([⟨[255], ReadErr.ok⟩] ++ ⟨[1], .fail "boom"⟩ :: [])).1.bytesRead
        = initBC.bytesRead + sumChunkLens [⟨[255], ReadErr.ok⟩] ∧
      (countFile initBC ([⟨[255], ReadErr.ok⟩] ++ ⟨[1], .fail "boom"⟩ :: [])).1.ones
        = initBC.ones + sumChunkOnes [⟨[255], ReadErr.ok⟩] ∧
      (countFile initBC ([⟨[255], ReadErr.ok⟩] ++ ⟨[1], .fail "boom"⟩ :: [])).1.errs
        = initBC.errs ∧
      (walkFunc "." initBC
          (.regular "f" ([⟨[255], ReadErr.ok⟩] ++ ⟨[1], .fail "boom"⟩ :: []))).2
        = none ∧
      (walkFunc "." initBC
          (.regular "f" ([⟨[255], ReadErr.ok⟩] ++ ⟨[1], .fail "boom"⟩ :: []))).1.errs
        = initBC.errs ++
          ["error counting file " ++ fullPath "." "f" ++ ": " ++ "boom"]) := by
  have hgood : ∀ r ∈ [(⟨[255], ReadErr.ok⟩ : ReadResult)], r.err = ReadErr.ok := by
    decide
  exact ⟨hgood,
    C1_partial_credit "." "f" "boom" initBC [⟨[255], ReadErr.ok⟩] hgood [1] []⟩

/-- C2 witness: chunking invariance at a concrete chunking of three bytes
into two reads. -/
theorem C2_chunking_invariance_witness :
    (∀ c ∈ [[255], [0, 170]], ∀ b ∈ c, b < 256) ∧
    ((countFile initBC (toOkReads [[255], [0, 170]] ++ [⟨[], .eof⟩])).2 = none ∧
      (countFile initBC (toOkReads [[255], [0, 170]] ++ [⟨[], .eof⟩])).1.ones
        = initBC.ones + listPopCount [[255], [0, 170]].flatten ∧
      (countFile initBC (toOkReads [[255], [0, 170]] ++ [⟨[], .eof⟩])).1.bytesRead
        = initBC.bytesRead + [[255], [0, 170]].flatten.length ∧
      (countFile initBC (toOkReads [[255], [0, 170]] ++ [⟨[], .eof⟩])).1.ones
        = (countFile initBC
            (toOkReads [[[255], [0, 170]].flatten] ++ [⟨[], .eof⟩])).1.ones ∧
      (countFile initBC (toOkReads [[255], [0, 170]] ++ [⟨[], .eof⟩])).1.bytesRead
        = (countFile initBC
            (toOkReads [[[255], [0, 170]].flatten] ++ [⟨[], .eof⟩])).1.bytesRead) := by
  have hbytes : ∀ c ∈ [[255], [0, 170]], ∀ b ∈ c, b < 256 := by decide
  exact ⟨hbytes, C2_chunking_invariance initBC [[255], [0, 170]] hbytes⟩

end Bitcounts
